import Mathlib

/-!
Shallow embedding of the lisp interpreter (src/main.rs, src/env.rs).

Modelling conventions:
* Rust `f64` numbers are modelled as `ℚ`; every numeric literal and every
  arithmetic operation exercised by the claims (small-integer multiplication)
  is exact in IEEE double precision, so the rational model agrees with the
  Rust behaviour on all inputs the claims mention.
* Rust process aborts (`panic!`, failed `assert!`, `Option::unwrap` on `None`,
  `Result::unwrap` on `Err`, out-of-bounds indexing) are modelled as values of
  the inductive type `Panic`, delivered through `Except`.  A `Panic` models a
  process abort, not a recoverable error value.
* `FxHashMap` is modelled as an association list where insertion conses the
  new pair on the front and lookup takes the first match (the extensional
  behaviour of `HashMap::insert` / `get`).
* Rust `eval` can diverge (a closure body is a reference into the original
  forest, not a subterm), so the Lean evaluator takes a fuel parameter;
  running out of fuel is the distinct outcome `Err.noFuel`, a modelling
  artifact that never occurs in any concrete run below.
-/

deriving instance DecidableEq for Except

namespace Lisp

/-- Atoms of the syntax tree, from `enum Node` in main.rs:
a symbol or a numeric constant. -/
inductive Node where
  | Symbol (s : String)
  | Number (c : ℚ)
deriving DecidableEq

/-- Syntax nodes, from `enum AstNode` in main.rs: a leaf atom or a
parenthesised body (ordered children). -/
inductive AstNode where
  | leaf (n : Node)
  | body (children : List AstNode)

mutual

/-- Decidable equality for `AstNode` (hand-rolled: the nested `List`
occurrence defeats the deriving handler). -/
def decEqAst : (a b : AstNode) → Decidable (a = b)
  | .leaf x, .leaf y =>
    match decEq x y with
    | isTrue h => isTrue (by rw [h])
    | isFalse h => isFalse (by intro hc; cases hc; exact h rfl)
  | .leaf _, .body _ => isFalse (by intro h; cases h)
  | .body _, .leaf _ => isFalse (by intro h; cases h)
  | .body xs, .body ys =>
    match decEqAstList xs ys with
    | isTrue h => isTrue (by rw [h])
    | isFalse h => isFalse (by intro hc; cases hc; exact h rfl)

/-- Decidable equality for lists of `AstNode`. -/
def decEqAstList : (as bs : List AstNode) → Decidable (as = bs)
  | [], [] => isTrue rfl
  | [], _ :: _ => isFalse (by intro h; cases h)
  | _ :: _, [] => isFalse (by intro h; cases h)
  | a :: as, b :: bs =>
    match decEqAst a b, decEqAstList as bs with
    | isTrue h1, isTrue h2 => isTrue (by rw [h1, h2])
    | isFalse h1, _ => isFalse (by intro hc; cases hc; exact h1 rfl)
    | isTrue _, isFalse h2 => isFalse (by intro hc; cases hc; exact h2 rfl)

end

instance : DecidableEq AstNode := decEqAst

/-- Modelled process aborts.  Each constructor corresponds to one concrete
panic site in the Rust source; the payloads record what the panic message
would carry. -/
inductive Panic where
  /-- eval's leaf branch: `panic!("instruction not found: ...")` on an
  unresolvable symbol (main.rs line 135). -/
  | instructionNotFound (n : Node)
  /-- `Node::unwrap_symbol` on a `Number`: `panic!("node is constant")`. -/
  | nodeIsConstant
  /-- `AstNode::unwrap_leaf` on a `Body`: `panic!("astnode is body")`. -/
  | astnodeIsBody
  /-- `AstNode::unwrap_body` on a `Leaf`: `panic!("astnode is leaf")`. -/
  | astnodeIsLeaf
  /-- `AstNode::push` on a `Leaf`, and the final match in `parse`:
  `panic!("no")`. -/
  | no
  /-- `Option::unwrap` on `None` (deque pops, `eval(..).unwrap()`,
  `get_mut(..)` on a missing scope). -/
  | unwrapNone
  /-- out-of-bounds `Vec` indexing (`body[1]`, `body[2]`). -/
  | indexOOB
  /-- the failed `assert!(level == 0)` in `parse`. -/
  | assertUnbalanced
  /-- `Result::unwrap` on `Err` at the native-call site (main.rs line 166);
  carries the native error string. -/
  | nativeErr (msg : String)
deriving DecidableEq

/-- Evaluation outcomes that are not normal returns: a modelled process
abort, or fuel exhaustion (a modelling artifact standing for divergence). -/
inductive Err where
  | panic (p : Panic)
  | noFuel
deriving DecidableEq

/-! ## Tokenizer (Parser::tokenise, main.rs lines 61-86) -/

/-- Loop body of `Parser::tokenise`: walks the characters keeping the pending
atom accumulator `acc`.  Note the faithful quirks of the source: only the
space character `' '` is a separator (no other whitespace), and when the
character stream ends the pending accumulator is dropped, not flushed
(the loop at lines 66-83 returns `tokens` without a final flush). -/
def tokAux : List Char → List Char → List String
  | [], _acc => []
  | c :: cs, acc =>
    if c = '(' ∨ c = ')' then
      (if acc ≠ [] then [String.mk acc] else []) ++ String.singleton c :: tokAux cs []
    else if c = ' ' then
      (if acc ≠ [] then [String.mk acc] else []) ++ tokAux cs []
    else
      tokAux cs (acc ++ [c])

/-- `Parser::tokenise`: source text to token sequence. -/
def tokenise (s : String) : List String :=
  tokAux s.data []

/-! ## Numeric classification (`tok.parse::<f64>()` in Parser::parse) -/

/-- Numeric value of a digit run, most significant first. -/
def digitsVal (l : List Char) : ℕ :=
  l.foldl (fun acc c => 10 * acc + (c.toNat - '0'.toNat)) 0

/-- Exact rational product, written through the reducible smart constructor
`Rat.normalize` so that concrete computations reduce (`Rat.mul` itself is
`@[irreducible]`); `ratMul_eq_mul` below proves it equal to `*`. -/
def ratMul (a b : ℚ) : ℚ :=
  Rat.normalize (a.num * b.num) (a.den * b.den) (Nat.mul_ne_zero a.den_nz b.den_nz)

/-- Modelled from the spec: the external Rust float parser
(`str::parse::<f64>`, standard library, not part of src/).  The spec's rule
is that an atom is a `Number` iff it lexes fully as a floating-point
literal.  Modelled here for the plain decimal forms `[+-]? digits`,
`[+-]? digits . digits*` and `[+-]? . digits` with exact rational value;
exponent, infinity and NaN forms and rounding are not exercised by any
claim and are omitted. -/
def parseF64 (l : List Char) : Option ℚ :=
  let signed : Bool × List Char :=
    match l with
    | '+' :: r => (false, r)
    | '-' :: r => (true, r)
    | r => (false, r)
  let neg := signed.1
  let r := signed.2
  let intPart := r.takeWhile Char.isDigit
  let rest := r.dropWhile Char.isDigit
  match rest with
  | [] =>
    if intPart = [] then none
    else some (mkRat (cond neg (-(digitsVal intPart : ℤ)) (digitsVal intPart : ℤ)) 1)
  | '.' :: fracRest =>
    let fracPart := fracRest.takeWhile Char.isDigit
    let tail := fracRest.dropWhile Char.isDigit
    if tail ≠ [] then none
    else if intPart = [] ∧ fracPart = [] then none
    else
      let combined : ℤ := digitsVal intPart * 10 ^ fracPart.length + digitsVal fracPart
      some (mkRat (cond neg (-combined) combined) (10 ^ fracPart.length))
  | _ => none

/-- Token classification in `Parser::parse` line 109:
`tok.parse::<f64>().map_or_else(|_| Node::Symbol(tok), |a| Node::Number(a))`. -/
def atomToNode (tok : String) : AstNode :=
  match parseF64 tok.data with
  | some q => .leaf (.Number q)
  | none => .leaf (.Symbol tok)

/-! ## Parser (Parser::parse, main.rs lines 88-124) -/

/-- Loop of `Parser::parse`: the explicit nesting stack (front of the list is
the top of the `VecDeque`), and the `level` counter.  Each panic site of the
source is a distinct `Panic` value. -/
def parseLoop : List String → List AstNode → Int → Except Panic (List AstNode × Int)
  | [], stack, level => .ok (stack, level)
  | tok :: rest, stack, level =>
    if tok = "(" then
      parseLoop rest (.body [] :: stack) (level + 1)
    else if tok = ")" then
      match stack with
      | [] => .error .unwrapNone
      | n :: stack' =>
        match stack' with
        | [] => .error .unwrapNone
        | top :: stack'' =>
          match top with
          | .leaf _ => .error .no
          | .body l => parseLoop rest (.body (l ++ [n]) :: stack'') (level - 1)
    else
      match stack with
      | [] => .error .unwrapNone
      | top :: stack' =>
        match top with
        | .leaf _ => .error .no
        | .body l => parseLoop rest (.body (l ++ [atomToNode tok]) :: stack') level

/-- `Parser::parse`: runs the loop from the implicit top-level `Body`, then the
`assert!(level == 0)`, then unwraps the root body into the forest. -/
def parse (tokens : List String) : Except Panic (List AstNode) :=
  match parseLoop tokens [.body []] 0 with
  | .error p => .error p
  | .ok (stack, level) =>
    if level = 0 then
      match stack with
      | [] => .error .unwrapNone
      | first :: _ =>
        match first with
        | .body a => .ok a
        | .leaf _ => .error .no
    else .error .assertUnbalanced

/-! ## Environment store (env.rs) -/

/-- value of `std::f64::consts::PI`, bound to `pi` by `Env::std`.  The exact
IEEE double differs from this decimal below 10^-15; no claim observes the
value. -/
def piConst : ℚ := mkRat 3141592653589793 1000000000000000

/-- Closure payload, from `struct ProcInfo` as it is used by main.rs:
parameter names, a reference to the body node, and the captured scope id.
(The declaration in env.rs has drifted: it declares `args: u8` and an extra
`String` in the `Proc` variant, which does not match its only construction
site and the accessors used at main.rs lines 154-177; the model follows the
usage.) -/
structure ProcInfo where
  args : List String
  body : AstNode
  captured : ℕ
deriving DecidableEq

/-- Values, from `enum EnvType`: numbers, user procedures, native procedures. -/
inductive EnvType where
  | Number (v : ℚ)
  | Proc (p : ProcInfo)
  | NativeProc (name : String)
deriving DecidableEq

/-- One scope, from `struct Env`: its id, its parent link (recorded at
creation), and its local bindings (field `variables` in the source; that
word is reserved in Lean, so the field is named `vars`). -/
structure Env where
  id : ℕ
  parent : Option ℕ
  vars : List (String × EnvType)
deriving DecidableEq

/-- `Env::set`: local-only write (HashMap insert = shadowing cons). -/
def envSet (e : Env) (name : String) (val : EnvType) : Env :=
  { e with vars := (name, val) :: e.vars }

/-- `Env::get`: local-only read. -/
def envGet (e : Env) (name : String) : Option EnvType :=
  (e.vars.find? (fun kv => kv.1 == name)).map (·.2)

/-- `Env::contains`. -/
def envContains (e : Env) (name : String) : Bool :=
  e.vars.any (fun kv => kv.1 == name)

/-- `Env::new`: a fresh empty scope. -/
def Env.new (id : ℕ) (parent : Option ℕ) : Env :=
  { id := id, parent := parent, vars := [] }

/-- The scope arena, from `struct EnvManager`: a parent map, the scope map,
and the id counter.  (Note: the source populates `parents` nowhere.) -/
structure EnvManager where
  parents : List (ℕ × ℕ)
  envs : List (ℕ × Env)
  counter : ℕ
deriving DecidableEq

/-- `EnvManager::new`. -/
def EnvManager.new : EnvManager := ⟨[], [], 0⟩

/-- `EnvManager::parent`: reads the `parents` map (NOT the `parent` field
recorded inside the `Env`). -/
def parentOf (σ : EnvManager) (id : ℕ) : Option ℕ :=
  (σ.parents.find? (fun kv => kv.1 == id)).map (·.2)

/-- `EnvManager::get` / lookup into the scope map.  (Rust panics when the id
is absent; every use below guards the lookup, so absence is modelled as
`none` at the call sites that Rust makes unreachable.) -/
def getEnv (σ : EnvManager) (id : ℕ) : Option Env :=
  (σ.envs.find? (fun kv => kv.1 == id)).map (·.2)

/-- HashMap insert into the scope map (shadowing cons; ids are never
reused, and in-place mutation of a scope is modelled by re-inserting the
updated scope under the same id). -/
def emInsert (σ : EnvManager) (id : ℕ) (e : Env) : EnvManager :=
  { σ with envs := (id, e) :: σ.envs }

/-- Recursion core of `EnvManager::find_var`, with explicit fuel: the Rust
recursion walks `parent` links, which terminates for every acyclic chain.
The fuel passed by `find_var` exceeds the number of scopes in the store, so
it never expires on a chain of distinct stored scopes. -/
def findVarFuel : ℕ → EnvManager → ℕ → String → Option ℕ
  | 0, _, _, _ => none
  | fuel + 1, σ, id, name =>
    match getEnv σ id with
    | none => none
    | some e =>
      if envContains e name then some id
      else
        match parentOf σ id with
        | none => none
        | some p => findVarFuel fuel σ p name

/-- `EnvManager::find_var` (env.rs lines 54-60): nearest scope, starting at
`id` and following `EnvManager::parent`, whose local bindings contain
`name`. -/
def find_var (σ : EnvManager) (id : ℕ) (name : String) : Option ℕ :=
  findVarFuel (σ.counter + 1) σ id name

/-- `EnvManager::new_env` (env.rs lines 70-76): allocates `Env::new(counter,
parent)`, inserts it into `envs`, bumps the counter, and returns the new id.
Faithfully to the source, it does NOT record `parent` in the `parents` map.
Returns the updated manager and the new id. -/
def new_env (σ : EnvManager) (parent : Option ℕ) : EnvManager × ℕ :=
  let id := σ.counter
  ({ emInsert σ id (Env.new id parent) with counter := id + 1 }, id)

/-- `Env::std`: seeds the native bindings: `*`, then the constant `pi`. -/
def envStd (e : Env) : Env :=
  envSet (envSet e "*" (.NativeProc "*")) "pi" (.Number piConst)

/-- `EnvManager::std_env`: a fresh root scope with the std bindings. -/
def std_env (σ : EnvManager) : EnvManager × ℕ :=
  let r := new_env σ none
  match getEnv r.1 r.2 with
  | some e => (emInsert r.1 r.2 (envStd e), r.2)
  | none => r

/-- `Env::native_call` (env.rs lines 107-123): the native dispatch table.
Only `*` exists: exactly two arguments, both numbers, product; otherwise the
error strings of the source. -/
def native_call (name : String) (args : List EnvType) : Except String EnvType :=
  if name = "*" then
    match args with
    | [a, b] =>
      match a with
      | .Number x =>
        match b with
        | .Number y => .ok (.Number (ratMul x y))
        | _ => .error "not number"
      | _ => .error "not number"
    | _ => .error "incorrect args"
  else .error ("function " ++ name ++ " not found")

/-! ## Evaluator (Parser::eval, main.rs lines 126-183) -/

/-- `Node::resolve` (main.rs lines 20-25): a number resolves to itself, a
symbol through `find_var` then `get` on the owning scope.  (`get` on the
owner cannot miss: `find_var` only returns scopes whose bindings contain the
name.) -/
def resolve (n : Node) (σ : EnvManager) (id : ℕ) : Option EnvType :=
  match n with
  | .Number c => some (.Number c)
  | .Symbol s =>
    match find_var σ id s with
    | none => none
    | some owner =>
      match getEnv σ owner with
      | some e => envGet e s
      | none => none

/-- Keyword test of eval's special-form dispatch (main.rs lines 145-158):
the first child is the literal symbol `define` or `lambda`. -/
def isKeyword (t : AstNode) : Bool :=
  t = .leaf (.Symbol "define") || t = .leaf (.Symbol "lambda")

/-- Parameter-name extraction of the lambda branch (main.rs line 154):
`arg.unwrap_leaf().unwrap_symbol()` for each element, left to right, first
panic wins. -/
def mapParams : List AstNode → Except Panic (List String)
  | [] => .ok []
  | a :: rest =>
    match a with
    | .body _ => .error .astnodeIsBody
    | .leaf (.Number _) => .error .nodeIsConstant
    | .leaf (.Symbol s) => (mapParams rest).map (fun l => s :: l)

/-- Sequential argument evaluation (main.rs lines 164 and 170):
`iter().map(|a| Self::eval(a, ...).unwrap()).collect()` — left to right,
each result unwrapped (a `None` result aborts). -/
def evalSeq (f : AstNode → EnvManager → EnvManager × Except Err (Option EnvType)) :
    List AstNode → EnvManager → EnvManager × Except Err (List EnvType)
  | [], σ => (σ, .ok [])
  | a :: rest, σ =>
    match f a σ with
    | (σ', .error e) => (σ', .error e)
    | (σ', .ok none) => (σ', .error (.panic .unwrapNone))
    | (σ', .ok (some v)) =>
      match evalSeq f rest σ' with
      | (σ'', .error e) => (σ'', .error e)
      | (σ'', .ok vs) => (σ'', .ok (v :: vs))

/-- `for (k, v) in proc.args().iter().zip(arg_vals) { env.set(k, v) }`
(main.rs lines 173-175): positional binding, pairing stops at the shorter
sequence. -/
def bindArgs (e : Env) (params : List String) (args : List EnvType) : Env :=
  (params.zip args).foldl (fun acc kv => envSet acc kv.1 kv.2) e

/-- `Parser::eval` (main.rs lines 126-183), with fuel.  Returns the updated
store and either `some` value, `none` (the `define` branch), or a modelled
abort. -/
def evalNode : ℕ → AstNode → EnvManager → ℕ → EnvManager × Except Err (Option EnvType)
  | 0, _, σ, _ => (σ, .error .noFuel)
  | fuel + 1, ast, σ, id =>
    match ast with
    | .leaf n =>
      match resolve n σ id with
      | none => (σ, .error (.panic (.instructionNotFound n)))
      | some v => (σ, .ok (some v))
    | .body l =>
      match l with
      | [] => (σ, .error (.panic .unwrapNone))
      | t :: rest =>
        if t = AstNode.leaf (.Symbol "define") then
          -- define branch (lines 147-152): body[2] is evaluated first,
          -- then body[1] is unwrapped to a symbol, then set into this scope.
          match rest with
          | nm :: ex :: _ =>
            match evalNode fuel ex σ id with
            | (σ', .error e) => (σ', .error e)
            | (σ', .ok none) => (σ', .error (.panic .unwrapNone))
            | (σ', .ok (some v)) =>
              match nm with
              | .body _ => (σ', .error (.panic .astnodeIsBody))
              | .leaf (.Number _) => (σ', .error (.panic .nodeIsConstant))
              | .leaf (.Symbol x) =>
                match getEnv σ' id with
                | none => (σ', .error (.panic .unwrapNone))
                | some env => (emInsert σ' id (envSet env x v), .ok none)
          | _ => (σ, .error (.panic .indexOOB))
        else if t = AstNode.leaf (.Symbol "lambda") then
          -- lambda branch (lines 153-156): params from body[1], body ref
          -- body[2], captures the current scope id.
          match rest with
          | ps :: rest' =>
            match ps with
            | .leaf _ => (σ, .error (.panic .astnodeIsLeaf))
            | .body params =>
              match mapParams params with
              | .error p => (σ, .error (.panic p))
              | .ok names =>
                match rest' with
                | b :: _ => (σ, .ok (some (.Proc (.mk names b id))))
                | [] => (σ, .error (.panic .indexOOB))
          | [] => (σ, .error (.panic .indexOOB))
        else
          -- application (lines 161-182)
          match evalNode fuel t σ id with
          | (σ₁, .error e) => (σ₁, .error e)
          | (σ₁, .ok pr) =>
            match pr with
            | some (.NativeProc name) =>
              match evalSeq (fun a σ => evalNode fuel a σ id) rest σ₁ with
              | (σ₂, .error e) => (σ₂, .error e)
              | (σ₂, .ok args) =>
                match native_call name args with
                | .ok v => (σ₂, .ok (some v))
                | .error msg => (σ₂, .error (.panic (.nativeErr msg)))
            | some (.Proc p) =>
              -- new scope with parent = captured, created before the
              -- arguments are evaluated (line 168 before line 170)
              let fresh := σ₁.counter
              let σ₂ := (new_env σ₁ (some p.captured)).1
              match evalSeq (fun a σ => evalNode fuel a σ id) rest σ₂ with
              | (σ₃, .error e) => (σ₃, .error e)
              | (σ₃, .ok argVals) =>
                match getEnv σ₃ fresh with
                | none => (σ₃, .error (.panic .unwrapNone))
                | some env =>
                  match evalNode fuel p.body (emInsert σ₃ fresh (bindArgs env p.args argVals)) fresh with
                  | (σ₅, .ok (some v)) => (σ₅, .ok (some v))
                  | (σ₅, .ok none) => (σ₅, .error (.panic .unwrapNone))
                  | (σ₅, .error e) => (σ₅, .error e)
            | _ => (σ₁, .ok pr)

/-! ## Top-level driver behaviour (fn main, main.rs lines 186-199) -/

/-- Evaluates the forest in order against the root scope, as `main` does.
A panic aborts the process: the aborting form's outcome is recorded and no
later form runs. -/
def runForms : ℕ → List AstNode → EnvManager → ℕ → List (Except Err (Option EnvType))
  | _, [], _, _ => []
  | fuel, a :: rest, σ, id =>
    match evalNode fuel a σ id with
    | (σ', .ok v) => .ok v :: runForms fuel rest σ' id
    | (_, .error e) => [.error e]

/-- End-to-end pipeline: tokenise, parse, then evaluate each top-level form
against the std root scope.  A parse-time abort is the outer error. -/
def runProgram (fuel : ℕ) (s : String) : Except Panic (List (Except Err (Option EnvType))) :=
  match parse (tokenise s) with
  | .error p => .error p
  | .ok forest =>
    let r := std_env EnvManager.new
    .ok (runForms fuel forest r.1 r.2)

/-! ## Specification-side definitions used to state the claims -/

/-- Helper: `dropWhile` never lengthens a list (termination measure for the
run-splitting token specifications below). -/
theorem dropWhile_len_le (p : α → Bool) (l : List α) :
    (l.dropWhile p).length ≤ l.length := by
  induction l with
  | nil => simp [List.dropWhile]
  | cons a l ih =>
    simp only [List.dropWhile]
    cases p a
    · simp only [List.length_cons]; omega
    · simp only [List.length_cons]; omega

/-- Character class of claim C3's wording: an atom character is anything that
is not a parenthesis and not whitespace. -/
def wsAtomChar (c : Char) : Bool :=
  !(c = '(' || c = ')' || c.isWhitespace)

/-- Fuel-indexed core of `claimTokens` (structural recursion on the fuel;
each step consumes at least one character, so fuel `l.length` is always
enough). -/
def claimTokensF : ℕ → List Char → List String
  | 0, _ => []
  | _ + 1, [] => []
  | f + 1, c :: cs =>
    if c = '(' ∨ c = ')' then String.singleton c :: claimTokensF f cs
    else if c.isWhitespace then claimTokensF f cs
    else String.mk (c :: cs.takeWhile wsAtomChar) :: claimTokensF f (cs.dropWhile wsAtomChar)

/-- Tokenizer written from claim C3's words: `(` and `)` their own tokens,
every maximal run of non-whitespace non-paren characters one atom token
(also flushed at end of input), whitespace a separator only. -/
def claimTokens (l : List Char) : List String := claimTokensF l.length l

/-- Character class actually used by the source tokenizer: not a parenthesis
and not the space character (other whitespace is an ordinary atom
character). -/
def spaceAtomChar (c : Char) : Bool :=
  !(c = '(' || c = ')' || c = ' ')

/-- Fuel-indexed core of `specTokens` (structural recursion on the fuel;
each step consumes at least one character, so fuel `l.length` is always
enough). -/
def specTokensF : ℕ → List Char → List String
  | 0, _ => []
  | _ + 1, [] => []
  | f + 1, c :: cs =>
    if c = '(' ∨ c = ')' then String.singleton c :: specTokensF f cs
    else if c = ' ' then specTokensF f cs
    else
      if cs.dropWhile spaceAtomChar = [] then []
      else String.mk (c :: cs.takeWhile spaceAtomChar) :: specTokensF f (cs.dropWhile spaceAtomChar)

/-- Tokenizer specification amended to the source's behaviour: only `' '`
separates, a maximal run of non-space non-paren characters that is followed
by a space or a paren becomes one atom token, and a maximal run that
reaches the end of the input is discarded rather than flushed. -/
def specTokens (l : List Char) : List String := specTokensF l.length l

/-- Nesting weight of one token: `(` opens, `)` closes, atoms are neutral. -/
def tokWeight (t : String) : Int :=
  if t = "(" then 1 else if t = ")" then -1 else 0

/-- Net nesting level of a token sequence (number of `(` minus number of
`)`). -/
def lvl (ts : List String) : Int :=
  (ts.map tokWeight).sum

/-- No-premature-close check: scanning from running level `d`, the level
never becomes negative (and in particular ends nonnegative).  `nnTok 0 ts`
says no proper prefix of `ts` closes a parenthesis that is not open. -/
def nnTok : Int → List String → Bool
  | d, [] => decide (0 ≤ d)
  | d, t :: ts => decide (0 ≤ d) && nnTok (d + tokWeight t) ts

/-- Number of top-level forms of a token sequence: tokens starting a form
while the running level parameter is zero (an atom, or a `(` opening a
top-level group). -/
def cnt : List String → Int → ℕ
  | [], _ => 0
  | t :: ts, d =>
    if t = "(" then (if d = 0 then 1 else 0) + cnt ts (d + 1)
    else if t = ")" then cnt ts (d - 1)
    else (if d = 0 then 1 else 0) + cnt ts d

/-- Scanner locating the first `)` token at relative depth zero, skipping
`d` still-open groups: returns the tokens before it and after it. -/
def scanClose : List String → ℕ → Option (List String × List String)
  | [], _ => none
  | t :: ts, d =>
    if t = "(" then (scanClose ts (d + 1)).map (fun uv => (t :: uv.1, uv.2))
    else if t = ")" then
      match d with
      | 0 => some ([], ts)
      | e + 1 => (scanClose ts e).map (fun uv => (t :: uv.1, uv.2))
    else (scanClose ts d).map (fun uv => (t :: uv.1, uv.2))

/-- The store as `main` initialises it (EnvManager::new then std_env), with
the root scope id. -/
def initStore : EnvManager × ℕ := std_env EnvManager.new

/-! ## Theorems -/

/-- Helper: a list with an element that is not a symbol leaf makes
`mapParams` abort with `nodeIsConstant` (numeric leaf) or `astnodeIsBody`
(nested body), mirroring the unwrap panics of main.rs line 154. -/
theorem mapParams_err (l : List AstNode)
    (h : ∃ a ∈ l, ∀ s, a ≠ AstNode.leaf (.Symbol s)) :
    ∃ p, mapParams l = .error p ∧
      (p = Panic.nodeIsConstant ∨ p = Panic.astnodeIsBody) := by
  induction l with
  | nil => rcases h with ⟨a, ha, _⟩; cases ha
  | cons a rest ih =>
    cases a with
    | body children => exact ⟨.astnodeIsBody, rfl, Or.inr rfl⟩
    | leaf n =>
      cases n with
      | Number c => exact ⟨.nodeIsConstant, rfl, Or.inl rfl⟩
      | Symbol s =>
        rcases h with ⟨b, hb, hbad⟩
        rcases List.mem_cons.mp hb with h1 | h2
        · exact absurd h1 (hbad s)
        · obtain ⟨p, hp, hor⟩ := ih ⟨b, h2, hbad⟩
          exact ⟨p, by simp [mapParams, hp, Except.map], hor⟩

/-- C1: evaluating the two top-level forms of
`(define outer (lambda (a) (lambda (b) (* a b)))) ((outer 3) 2)` against the
root scope does NOT make the second form evaluate to `Number 6`: because
`new_env` never records the creation parent in the `parents` map that
`find_var` walks, the body `(* a b)` cannot resolve `*` from the call scope,
and evaluation aborts with the `instruction not found` panic.  (The claim is
right about the intent — `find_var`'s own comment promises the parent walk
and `main` itself expects this program to print results — so this is a bug
in the code, witnessed here.) -/
theorem c1_closure_example_aborts :
    runProgram 32 "(define outer (lambda (a) (lambda (b) (* a b)))) ((outer 3) 2)" =
      .ok [.ok none, .error (.panic (.instructionNotFound (.Symbol "*")))] := by
  decide

/-- C2: the ancestor lookup does not walk parent links: in the store holding
the std root scope (which binds `pi`) and a child scope created by `new_env`
with parent = root, `find_var` from the child returns `none` for `pi`, even
though the child was created with the root as parent (third conjunct) and
binds nothing locally (fourth conjunct).  The claim says it must return the
root.  The cause: `new_env` never inserts into `EnvManager.parents`, the map
`EnvManager::parent` reads, contradicting `find_var`'s own doc comment. -/
theorem c2_lookup_ignores_parents :
    find_var (new_env initStore.1 (some initStore.2)).1
        (new_env initStore.1 (some initStore.2)).2 "pi" = none
    ∧ (getEnv (new_env initStore.1 (some initStore.2)).1 initStore.2).map
        (fun e => envContains e "pi") = some true
    ∧ (getEnv (new_env initStore.1 (some initStore.2)).1
        (new_env initStore.1 (some initStore.2)).2).map Env.parent =
        some (some initStore.2)
    ∧ (getEnv (new_env initStore.1 (some initStore.2)).1
        (new_env initStore.1 (some initStore.2)).2).map
        (fun e => envContains e "pi") = some false := by
  decide

/-- C3 counterexample: the source tokenizer disagrees with the claim's
tokenizer (`claimTokens`, written from the claim's words) — a maximal run
that reaches end of input is dropped, not flushed (`"ab"`), and a tab is an
ordinary atom character, not a separator (`"a\tb)"`). -/
theorem c3_counterexample :
    tokenise "ab" ≠ claimTokens "ab".data
    ∧ tokenise "a\tb)" ≠ claimTokens ("a\tb)").data
    ∧ tokenise "ab" = [] ∧ claimTokens "ab".data = ["ab"]
    ∧ tokenise "a\tb)" = ["a\tb", ")"]
    ∧ claimTokens ("a\tb)").data = ["a", "b", ")"] := by
  decide

/-- C5 counterexample: evaluating the program `(foo)` does not produce a
recoverable `UnboundSymbolError` value; the process aborts with the
`instruction not found` panic of main.rs line 135. -/
theorem c5_counterexample :
    runProgram 8 "(foo)" =
      .ok [.error (.panic (.instructionNotFound (.Symbol "foo")))] := by
  decide

/-- C5 (amended): evaluating a `Leaf/Symbol` node whose name the ancestor
lookup cannot find aborts with the `instruction not found` panic carrying
that node — a modelled process abort, not a recoverable error value. -/
theorem c5_unbound_symbol_panics (fuel : ℕ) (σ : EnvManager) (id : ℕ) (s : String)
    (h : find_var σ id s = none) :
    evalNode (fuel + 1) (.leaf (.Symbol s)) σ id =
      (σ, .error (.panic (.instructionNotFound (.Symbol s)))) := by
  simp only [evalNode, resolve, h]

/-- C5 witness: the root store does not bind `foo`, and the theorem applies. -/
theorem c5_witness :
    evalNode 1 (.leaf (.Symbol "foo")) initStore.1 initStore.2 =
      (initStore.1, .error (.panic (.instructionNotFound (.Symbol "foo")))) :=
  c5_unbound_symbol_panics 0 initStore.1 initStore.2 "foo" (by decide)

/-- C6 counterexample: the application `(5 2)` does not fail with
`NotCallableError`; it evaluates to the operator value `Number 5` (the
remaining children are never evaluated). -/
theorem c6_counterexample :
    runProgram 8 "(5 2)" = .ok [.ok (some (.Number 5))] := by
  decide

/-- C6 (amended): an application whose operator evaluates to a value that is
neither a `NativeProc` nor a `Proc` (or to no value) returns that operator
result unchanged — no error is raised and the remaining children are not
evaluated (the state stays at the operator's result state). -/
theorem c6_noncallable_returned (fuel : ℕ) (t : AstNode) (rest : List AstNode)
    (σ σ₁ : EnvManager) (id : ℕ) (r : Option EnvType)
    (hk : isKeyword t = false)
    (hop : evalNode fuel t σ id = (σ₁, .ok r))
    (hp : ∀ p, r ≠ some (.Proc p))
    (hn : ∀ nm, r ≠ some (.NativeProc nm)) :
    evalNode (fuel + 1) (.body (t :: rest)) σ id = (σ₁, .ok r) := by
  simp only [isKeyword, Bool.or_eq_false_iff, decide_eq_false_iff_not] at hk
  simp only [evalNode]
  rw [if_neg hk.1, if_neg hk.2, hop]
  cases r with
  | none => rfl
  | some v =>
    cases v with
    | Number q => rfl
    | Proc p => exact absurd rfl (hp p)
    | NativeProc nm => exact absurd rfl (hn nm)

/-- C6 witness: applying `Number 5` to one argument returns `Number 5`. -/
theorem c6_witness :
    evalNode 2 (.body [.leaf (.Number 5), .leaf (.Number 2)]) initStore.1 initStore.2 =
      (initStore.1, .ok (some (.Number 5))) :=
  c6_noncallable_returned 1 (.leaf (.Number 5)) [.leaf (.Number 2)]
    initStore.1 initStore.1 initStore.2 (some (.Number 5))
    (by decide) (by decide)
    (fun p h => EnvType.noConfusion (Option.some.inj h))
    (fun nm h => EnvType.noConfusion (Option.some.inj h))

/-- C9 counterexample: the native arity failure of `(* 1 2 3)` does not
propagate out of the evaluator as a recoverable value; the evaluator unwraps
the `Err` and the process aborts with a panic carrying the native error. -/
theorem c9_counterexample :
    runProgram 8 "(* 1 2 3)" =
      .ok [.error (.panic (.nativeErr "incorrect args"))] := by
  decide

/-- Helper: `ratMul` agrees with rational multiplication. -/
theorem ratMul_eq_mul (a b : ℚ) : ratMul a b = a * b := by
  rw [Rat.mul_def]; rfl

/-- C9 (amended): the native `*` multiplies exactly two numbers; any other
arity yields the native error `incorrect args` and a non-number argument the
native error `not number` — but at the evaluator's call site these native
failures are unwrapped into a panic (a modelled process abort), not
propagated as recoverable values. -/
theorem c9_native_mul_contract :
    (∀ a b : ℚ, native_call "*" [.Number a, .Number b] = .ok (.Number (a * b)))
    ∧ (∀ args : List EnvType, args.length ≠ 2 →
        native_call "*" args = .error "incorrect args")
    ∧ (∀ v b, (∀ q, v ≠ EnvType.Number q) →
        native_call "*" [v, b] = .error "not number")
    ∧ (∀ (a : ℚ) v, (∀ q, v ≠ EnvType.Number q) →
        native_call "*" [.Number a, v] = .error "not number")
    ∧ (∀ (fuel : ℕ) (t : AstNode) (rest : List AstNode) (σ σ₁ σ₂ : EnvManager)
        (id : ℕ) (name : String) (args : List EnvType) (msg : String),
        isKeyword t = false →
        evalNode fuel t σ id = (σ₁, .ok (some (.NativeProc name))) →
        evalSeq (fun a σ => evalNode fuel a σ id) rest σ₁ = (σ₂, .ok args) →
        native_call name args = .error msg →
        evalNode (fuel + 1) (.body (t :: rest)) σ id =
          (σ₂, .error (.panic (.nativeErr msg)))) := by
  refine ⟨?_, ?_, ?_, ?_, ?_⟩
  · intro a b
    have h : native_call "*" [.Number a, .Number b] = .ok (.Number (ratMul a b)) := rfl
    rw [h, ratMul_eq_mul]
  · intro args h
    match args with
    | [] => rfl
    | [a] => rfl
    | [a, b] => exact absurd rfl h
    | a :: b :: c :: rest => rfl
  · intro v b hv
    cases v with
    | Number q => exact absurd rfl (hv q)
    | Proc p => rfl
    | NativeProc nm => rfl
  · intro a v hv
    cases v with
    | Number q => exact absurd rfl (hv q)
    | Proc p => rfl
    | NativeProc nm => rfl
  · intro fuel t rest σ σ₁ σ₂ id name args msg hk hop hargs hnat
    simp only [isKeyword, Bool.or_eq_false_iff, decide_eq_false_iff_not] at hk
    simp only [evalNode]
    rw [if_neg hk.1, if_neg hk.2, hop]
    simp only [hargs, hnat]

/-- C9 witness: the contract at concrete inputs, including the unwrap-panic
at the evaluator's native call site for `(* 1 2 3)`. -/
theorem c9_witness :
    native_call "*" [.Number 2, .Number 3] = .ok (.Number (2 * 3))
    ∧ native_call "*" [.Number 1] = .error "incorrect args"
    ∧ native_call "*" [.NativeProc "*", .Number 1] = .error "not number"
    ∧ evalNode 2 (.body [.leaf (.Symbol "*"), .leaf (.Number 1), .leaf (.Number 2),
        .leaf (.Number 3)]) initStore.1 initStore.2 =
        (initStore.1, .error (.panic (.nativeErr "incorrect args"))) :=
  ⟨c9_native_mul_contract.1 2 3,
   c9_native_mul_contract.2.1 [.Number 1] (by decide),
   c9_native_mul_contract.2.2.1 (.NativeProc "*") (.Number 1)
     (fun q h => EnvType.noConfusion h),
   c9_native_mul_contract.2.2.2.2 1 (.leaf (.Symbol "*"))
     [.leaf (.Number 1), .leaf (.Number 2), .leaf (.Number 3)]
     initStore.1 initStore.1 initStore.1 initStore.2 "*"
     [.Number 1, .Number 2, .Number 3] "incorrect args"
     (by decide) (by decide) (by decide) (by decide)⟩

/-- C10: a `define` whose name position is a numeric leaf (or a nested body),
and a `lambda` one of whose parameter-list elements is a numeric leaf or a
nested body, abort evaluation with the `unwrap_symbol` / `unwrap_leaf`
panics (`nodeIsConstant` / `astnodeIsBody`) — a modelled process abort, not
a typed recoverable error.  (For `define`, the expression is evaluated
first, per the source order; the panic follows its successful evaluation.) -/
theorem c10_malformed_forms_panic :
    (∀ (fuel : ℕ) (c : ℚ) (e : AstNode) (rest : List AstNode) (σ σ' : EnvManager)
      (id : ℕ) (v : EnvType),
      evalNode fuel e σ id = (σ', .ok (some v)) →
      evalNode (fuel + 1)
          (.body (.leaf (.Symbol "define") :: .leaf (.Number c) :: e :: rest)) σ id =
        (σ', .error (.panic .nodeIsConstant)))
    ∧ (∀ (fuel : ℕ) (l : List AstNode) (e : AstNode) (rest : List AstNode)
        (σ σ' : EnvManager) (id : ℕ) (v : EnvType),
        evalNode fuel e σ id = (σ', .ok (some v)) →
        evalNode (fuel + 1)
            (.body (.leaf (.Symbol "define") :: .body l :: e :: rest)) σ id =
          (σ', .error (.panic .astnodeIsBody)))
    ∧ (∀ (fuel : ℕ) (params : List AstNode) (b : AstNode) (rest : List AstNode)
        (σ : EnvManager) (id : ℕ),
        (∃ a ∈ params, ∀ s, a ≠ AstNode.leaf (.Symbol s)) →
        ∃ p, evalNode (fuel + 1)
            (.body (.leaf (.Symbol "lambda") :: .body params :: b :: rest)) σ id =
          (σ, .error (.panic p))
          ∧ (p = Panic.nodeIsConstant ∨ p = Panic.astnodeIsBody)) := by
  refine ⟨?_, ?_, ?_⟩
  · intro fuel c e rest σ σ' id v he
    simp [evalNode, he]
  · intro fuel l e rest σ σ' id v he
    simp [evalNode, he]
  · intro fuel params b rest σ id h
    obtain ⟨p, hp, hor⟩ := mapParams_err params h
    refine ⟨p, ?_, hor⟩
    simp [evalNode, hp]

/-- Helper: looking up a key other than the newly inserted one is unchanged. -/
theorem getEnv_emInsert_ne (σ : EnvManager) (i j : ℕ) (e : Env) (h : j ≠ i) :
    getEnv (emInsert σ i e) j = getEnv σ j := by
  simp [getEnv, emInsert, List.find?_cons, beq_eq_false_iff_ne.mpr (Ne.symm h)]

/-- Helper: `new_env` does not disturb the scopes already stored. -/
theorem getEnv_new_env_ne (σ : EnvManager) (par : Option ℕ) (j : ℕ)
    (h : j ≠ σ.counter) : getEnv (new_env σ par).1 j = getEnv σ j := by
  simp [getEnv, new_env, emInsert, List.find?_cons, beq_eq_false_iff_ne.mpr (Ne.symm h)]

/-- Helper: the freshly created scope is stored under the old counter, empty,
with the requested parent link recorded in its `parent` field. -/
theorem getEnv_new_env_self (σ : EnvManager) (par : Option ℕ) :
    getEnv (new_env σ par).1 σ.counter = some (Env.new σ.counter par) := by
  simp [getEnv, new_env, emInsert, List.find?_cons]

/-- Helper: a local write is visible locally. -/
theorem envGet_envSet_self (e : Env) (k : String) (v : EnvType) :
    envGet (envSet e k v) k = some v := by
  simp [envGet, envSet, List.find?_cons]

/-- Helper: a local write does not touch other names. -/
theorem envGet_envSet_ne (e : Env) (k k2 : String) (v : EnvType) (h : k2 ≠ k) :
    envGet (envSet e k v) k2 = envGet e k2 := by
  simp [envGet, envSet, List.find?_cons, beq_eq_false_iff_ne.mpr (Ne.symm h)]

/-- Helper: binding parameters never touches a name outside the parameter
list. -/
theorem envGet_bindArgs_not_mem (e : Env) (params : List String)
    (args : List EnvType) (k : String) (h : k ∉ params) :
    envGet (bindArgs e params args) k = envGet e k := by
  induction params generalizing e args with
  | nil => rfl
  | cons p ps ih =>
    cases args with
    | nil => rfl
    | cons a as =>
      have hk : k ≠ p := fun hh => h (hh ▸ List.mem_cons_self p ps)
      have hstep : bindArgs e (p :: ps) (a :: as) = bindArgs (envSet e p a) ps as := rfl
      rw [hstep, ih (envSet e p a) as (fun hm => h (List.mem_cons_of_mem p hm))]
      exact envGet_envSet_ne e p k a hk

/-- Helper: positional binding semantics of `bindArgs` under distinct
parameter names — the i-th parameter is bound to the i-th argument when one
exists (pairing stops at the shorter list: extra arguments are dropped),
and a parameter beyond the argument list keeps the original environment's
binding (so it stays unbound in a fresh scope). -/
theorem bindArgs_get (params : List String) (args : List EnvType) (e : Env)
    (hnd : params.Nodup) (i : ℕ) (h : i < params.length) :
    envGet (bindArgs e params args) (params.get ⟨i, h⟩) =
      if h2 : i < args.length then some (args.get ⟨i, h2⟩)
      else envGet e (params.get ⟨i, h⟩) := by
  induction params generalizing e args i with
  | nil => exact absurd h (Nat.not_lt_zero i)
  | cons p ps ih =>
    cases args with
    | nil =>
      have hstep : bindArgs e (p :: ps) ([] : List EnvType) = e := rfl
      rw [hstep, dif_neg (by simp : ¬ i < ([] : List EnvType).length)]
    | cons a as =>
      have hstep : bindArgs e (p :: ps) (a :: as) = bindArgs (envSet e p a) ps as := rfl
      cases i with
      | zero =>
        have hpm : p ∉ ps := (List.nodup_cons.mp hnd).1
        rw [hstep]
        have hget : (p :: ps).get ⟨0, h⟩ = p := rfl
        rw [hget, envGet_bindArgs_not_mem _ _ _ _ hpm,
          dif_pos (by simp : 0 < (a :: as).length)]
        exact envGet_envSet_self e p a
      | succ i2 =>
        have h2 : i2 < ps.length := by simpa using h
        have hget : (p :: ps).get ⟨i2 + 1, h⟩ = ps.get ⟨i2, h2⟩ := rfl
        rw [hstep, hget, ih as (envSet e p a) (List.nodup_cons.mp hnd).2 i2 h2]
        by_cases hlt : i2 < as.length
        · rw [dif_pos hlt, dif_pos (by simpa using hlt)]
          rfl
        · rw [dif_neg hlt, dif_neg (by simpa using hlt)]
          have hmem : ps.get ⟨i2, h2⟩ ∈ ps := List.get_mem ps i2 h2
          have hne : ps.get ⟨i2, h2⟩ ≠ p :=
            fun hh => (List.nodup_cons.mp hnd).1 (hh ▸ hmem)
          exact envGet_envSet_ne e p _ a hne

/-- Helper: sequential argument evaluation preserves the counter monotonically
and never modifies an already-stored scope other than the evaluation scope
`id`, provided the underlying evaluator does. -/
theorem evalSeq_inv (f : AstNode → EnvManager → EnvManager × Except Err (Option EnvType))
    (id : ℕ)
    (hf : ∀ a σ, σ.counter ≤ (f a σ).1.counter ∧
      ∀ j, j ≠ id → j < σ.counter → getEnv (f a σ).1 j = getEnv σ j)
    (l : List AstNode) (σ : EnvManager) :
    σ.counter ≤ (evalSeq f l σ).1.counter ∧
    ∀ j, j ≠ id → j < σ.counter → getEnv (evalSeq f l σ).1 j = getEnv σ j := by
  induction l generalizing σ with
  | nil => exact ⟨le_rfl, fun _ _ _ => rfl⟩
  | cons a rest ih =>
    obtain ⟨h1, h2⟩ := hf a σ
    rcases hfa : f a σ with ⟨σ', r⟩
    rw [hfa] at h1 h2
    cases r with
    | error e =>
      simp only [evalSeq, hfa]
      exact ⟨h1, h2⟩
    | ok o =>
      cases o with
      | none =>
        simp only [evalSeq, hfa]
        exact ⟨h1, h2⟩
      | some v =>
        obtain ⟨h3, h4⟩ := ih σ'
        rcases hseq : evalSeq f rest σ' with ⟨σ'', r2⟩
        rw [hseq] at h3 h4
        have hc : σ.counter ≤ σ''.counter := le_trans h1 h3
        have hg : ∀ j, j ≠ id → j < σ.counter → getEnv σ'' j = getEnv σ j :=
          fun j hj hlt => (h4 j hj (lt_of_lt_of_le hlt h1)).trans (h2 j hj hlt)
        cases r2 with
        | error e =>
          simp only [evalSeq, hfa, hseq]
          exact ⟨hc, hg⟩
        | ok vs =>
          simp only [evalSeq, hfa, hseq]
          exact ⟨hc, hg⟩

/-- Helper (frame invariant of the evaluator): evaluation never lowers the
scope counter and never modifies an already-stored scope other than the
scope it evaluates in — new bindings land in the evaluation scope or in
freshly created scopes only. -/
theorem evalNode_inv (fuel : ℕ) :
    ∀ (ast : AstNode) (σ : EnvManager) (id : ℕ),
    σ.counter ≤ (evalNode fuel ast σ id).1.counter ∧
    ∀ j, j ≠ id → j < σ.counter → getEnv (evalNode fuel ast σ id).1 j = getEnv σ j := by
  induction fuel with
  | zero => exact fun ast σ id => ⟨le_rfl, fun _ _ _ => rfl⟩
  | succ fuel ih =>
    intro ast σ id
    cases ast with
    | leaf n =>
      have hstate : (evalNode (fuel + 1) (.leaf n) σ id).1 = σ := by
        simp only [evalNode]
        rcases resolve n σ id with _ | v <;> rfl
      rw [hstate]
      exact ⟨le_rfl, fun _ _ _ => rfl⟩
    | body l =>
      cases l with
      | nil => exact ⟨le_rfl, fun _ _ _ => rfl⟩
      | cons t rest =>
        by_cases hd : t = AstNode.leaf (.Symbol "define")
        · subst hd
          cases rest with
          | nil => exact ⟨le_rfl, fun _ _ _ => rfl⟩
          | cons nm rest2 =>
            cases rest2 with
            | nil => exact ⟨le_rfl, fun _ _ _ => rfl⟩
            | cons ex rest3 =>
              obtain ⟨h1, h2⟩ := ih ex σ id
              have hstep : evalNode (fuel + 1)
                  (.body (.leaf (.Symbol "define") :: nm :: ex :: rest3)) σ id =
                  (match evalNode fuel ex σ id with
                   | (σ', .error e) => (σ', .error e)
                   | (σ', .ok none) => (σ', .error (.panic .unwrapNone))
                   | (σ', .ok (some v)) =>
                     match nm with
                     | .body _ => (σ', .error (.panic .astnodeIsBody))
                     | .leaf (.Number _) => (σ', .error (.panic .nodeIsConstant))
                     | .leaf (.Symbol x) =>
                       match getEnv σ' id with
                       | none => (σ', .error (.panic .unwrapNone))
                       | some env => (emInsert σ' id (envSet env x v), .ok none)) := rfl
              rw [hstep]
              rcases he : evalNode fuel ex σ id with ⟨σ', r⟩
              rw [he] at h1 h2
              cases r with
              | error e => exact ⟨h1, h2⟩
              | ok o =>
                cases o with
                | none => exact ⟨h1, h2⟩
                | some v =>
                  cases nm with
                  | body ch => exact ⟨h1, h2⟩
                  | leaf nd =>
                    cases nd with
                    | Number c => exact ⟨h1, h2⟩
                    | Symbol x =>
                      rcases hg : getEnv σ' id with _ | env
                      · simp only [hg]
                        exact ⟨h1, h2⟩
                      · simp only [hg]
                        refine ⟨h1, fun j hj hlt => ?_⟩
                        exact (getEnv_emInsert_ne σ' id j _ hj).trans (h2 j hj hlt)
        · by_cases hl : t = AstNode.leaf (.Symbol "lambda")
          · subst hl
            cases rest with
            | nil => exact ⟨le_rfl, fun _ _ _ => rfl⟩
            | cons ps rest2 =>
              cases ps with
              | leaf n2 => exact ⟨le_rfl, fun _ _ _ => rfl⟩
              | body params =>
                have hstep : evalNode (fuel + 1)
                    (.body (.leaf (.Symbol "lambda") :: .body params :: rest2)) σ id =
                    (match mapParams params with
                     | .error p => (σ, .error (.panic p))
                     | .ok names =>
                       match rest2 with
                       | b :: _ => (σ, .ok (some (.Proc ⟨names, b, id⟩)))
                       | [] => (σ, .error (.panic .indexOOB))) := rfl
                rw [hstep]
                rcases mapParams params with p | names
                · exact ⟨le_rfl, fun _ _ _ => rfl⟩
                · cases rest2 with
                  | nil => exact ⟨le_rfl, fun _ _ _ => rfl⟩
                  | cons b rest3 => exact ⟨le_rfl, fun _ _ _ => rfl⟩
          · obtain ⟨h1, h2⟩ := ih t σ id
            have hargs := fun σ0 => evalSeq_inv (fun a σ => evalNode fuel a σ id) id
              (fun a σ => ih a σ id) rest σ0
            have hstep : evalNode (fuel + 1) (.body (t :: rest)) σ id =
                (match evalNode fuel t σ id with
                 | (σ₁, .error e) => (σ₁, .error e)
                 | (σ₁, .ok pr) =>
                   match pr with
                   | some (.NativeProc name) =>
                     match evalSeq (fun a σ => evalNode fuel a σ id) rest σ₁ with
                     | (σ₂, .error e) => (σ₂, .error e)
                     | (σ₂, .ok args) =>
                       match native_call name args with
                       | .ok v => (σ₂, .ok (some v))
                       | .error msg => (σ₂, .error (.panic (.nativeErr msg)))
                   | some (.Proc p) =>
                     match evalSeq (fun a σ => evalNode fuel a σ id) rest
                         (new_env σ₁ (some p.captured)).1 with
                     | (σ₃, .error e) => (σ₃, .error e)
                     | (σ₃, .ok argVals) =>
                       match getEnv σ₃ σ₁.counter with
                       | none => (σ₃, .error (.panic .unwrapNone))
                       | some env =>
                         match evalNode fuel p.body
                             (emInsert σ₃ σ₁.counter (bindArgs env p.args argVals))
                             σ₁.counter with
                         | (σ₅, .ok (some v)) => (σ₅, .ok (some v))
                         | (σ₅, .ok none) => (σ₅, .error (.panic .unwrapNone))
                         | (σ₅, .error e) => (σ₅, .error e)
                   | _ => (σ₁, .ok pr)) := by
              simp only [evalNode]
              rw [if_neg hd, if_neg hl]
            rw [hstep]
            split
            · rename_i σ₁ e heq
              rw [heq] at h1 h2
              exact ⟨h1, h2⟩
            · rename_i σ₁ pr heq
              rw [heq] at h1 h2
              replace h1 : σ.counter ≤ σ₁.counter := h1
              replace h2 : ∀ j, j ≠ id → j < σ.counter → getEnv σ₁ j = getEnv σ j := h2
              split
              · rename_i name
                split
                · rename_i σ₂ e heq2
                  obtain ⟨h3, h4⟩ := hargs σ₁
                  rw [heq2] at h3 h4
                  exact ⟨le_trans h1 h3, fun j hj hlt =>
                    (h4 j hj (lt_of_lt_of_le hlt h1)).trans (h2 j hj hlt)⟩
                · rename_i σ₂ args heq2
                  obtain ⟨h3, h4⟩ := hargs σ₁
                  rw [heq2] at h3 h4
                  replace h3 : σ₁.counter ≤ σ₂.counter := h3
                  replace h4 : ∀ j, j ≠ id → j < σ₁.counter → getEnv σ₂ j = getEnv σ₁ j := h4
                  have hc : σ.counter ≤ σ₂.counter := le_trans h1 h3
                  have hgg : ∀ j, j ≠ id → j < σ.counter → getEnv σ₂ j = getEnv σ j :=
                    fun j hj hlt => (h4 j hj (lt_of_lt_of_le hlt h1)).trans (h2 j hj hlt)
                  split
                  · exact ⟨hc, hgg⟩
                  · exact ⟨hc, hgg⟩
              · rename_i p
                have hcnt2 : (new_env σ₁ (some p.captured)).1.counter = σ₁.counter + 1 := rfl
                split
                · rename_i σ₃ e heq2
                  obtain ⟨h3, h4⟩ := hargs (new_env σ₁ (some p.captured)).1
                  rw [heq2] at h3 h4
                  replace h3 : (new_env σ₁ (some p.captured)).1.counter ≤ σ₃.counter := h3
                  replace h4 : ∀ j, j ≠ id → j < (new_env σ₁ (some p.captured)).1.counter →
                      getEnv σ₃ j = getEnv (new_env σ₁ (some p.captured)).1 j := h4
                  have hc3 : σ.counter ≤ σ₃.counter := by rw [hcnt2] at h3; omega
                  have hg3 : ∀ j, j ≠ id → j < σ.counter → getEnv σ₃ j = getEnv σ j := by
                    intro j hj hlt
                    have hj1 : j < σ₁.counter := lt_of_lt_of_le hlt h1
                    have e1 : getEnv σ₃ j = getEnv (new_env σ₁ (some p.captured)).1 j :=
                      h4 j hj (by rw [hcnt2]; omega)
                    rw [e1, getEnv_new_env_ne σ₁ (some p.captured) j (by omega)]
                    exact h2 j hj hlt
                  exact ⟨hc3, hg3⟩
                · rename_i σ₃ argVals heq2
                  obtain ⟨h3, h4⟩ := hargs (new_env σ₁ (some p.captured)).1
                  rw [heq2] at h3 h4
                  replace h3 : (new_env σ₁ (some p.captured)).1.counter ≤ σ₃.counter := h3
                  replace h4 : ∀ j, j ≠ id → j < (new_env σ₁ (some p.captured)).1.counter →
                      getEnv σ₃ j = getEnv (new_env σ₁ (some p.captured)).1 j := h4
                  have hc3 : σ.counter ≤ σ₃.counter := by rw [hcnt2] at h3; omega
                  have hg3 : ∀ j, j ≠ id → j < σ.counter → getEnv σ₃ j = getEnv σ j := by
                    intro j hj hlt
                    have hj1 : j < σ₁.counter := lt_of_lt_of_le hlt h1
                    have e1 : getEnv σ₃ j = getEnv (new_env σ₁ (some p.captured)).1 j :=
                      h4 j hj (by rw [hcnt2]; omega)
                    rw [e1, getEnv_new_env_ne σ₁ (some p.captured) j (by omega)]
                    exact h2 j hj hlt
                  split
                  · exact ⟨hc3, hg3⟩
                  · rename_i env heq3
                    have hbody := ih p.body
                      (emInsert σ₃ σ₁.counter (bindArgs env p.args argVals)) σ₁.counter
                    have hfin : ∀ (σ₅ : EnvManager),
                        evalNode fuel p.body
                          (emInsert σ₃ σ₁.counter (bindArgs env p.args argVals)) σ₁.counter
                          = (σ₅, (evalNode fuel p.body
                          (emInsert σ₃ σ₁.counter (bindArgs env p.args argVals)) σ₁.counter).2) →
                        σ.counter ≤ σ₅.counter ∧
                        ∀ j, j ≠ id → j < σ.counter → getEnv σ₅ j = getEnv σ j := by
                      intro σ₅ heq4
                      obtain ⟨h5, h6⟩ := hbody
                      rw [heq4] at h5 h6
                      replace h5 : σ₃.counter ≤ σ₅.counter := h5
                      replace h6 : ∀ j, j ≠ σ₁.counter → j < σ₃.counter →
                          getEnv σ₅ j = getEnv (emInsert σ₃ σ₁.counter
                            (bindArgs env p.args argVals)) j := h6
                      refine ⟨le_trans hc3 h5, fun j hj hlt => ?_⟩
                      have hj1 : j < σ₁.counter := lt_of_lt_of_le hlt h1
                      have hjf : j ≠ σ₁.counter := by omega
                      have e1 := h6 j hjf (lt_of_lt_of_le hlt hc3)
                      rw [e1, getEnv_emInsert_ne σ₃ σ₁.counter j _ hjf]
                      exact hg3 j hj hlt
                    split
                    · rename_i σ₅ v heq4
                      exact hfin σ₅ (by rw [heq4])
                    · rename_i σ₅ heq4
                      exact hfin σ₅ (by rw [heq4])
                    · rename_i σ₅ e heq4
                      exact hfin σ₅ (by rw [heq4])
              · rename_i hne1 hne2
                exact ⟨h1, h2⟩

/-- C10 witness: `(define 5 7)` panics with `node is constant`, and
`(lambda (5) x)` panics through the parameter unwraps. -/
theorem c10_witness :
    evalNode 2 (.body [.leaf (.Symbol "define"), .leaf (.Number 5), .leaf (.Number 7)])
        initStore.1 initStore.2 = (initStore.1, .error (.panic .nodeIsConstant))
    ∧ ∃ p, evalNode 1 (.body [.leaf (.Symbol "lambda"), .body [.leaf (.Number 5)],
        .leaf (.Symbol "x")]) initStore.1 initStore.2 =
        (initStore.1, .error (.panic p))
        ∧ (p = Panic.nodeIsConstant ∨ p = Panic.astnodeIsBody) :=
  ⟨c10_malformed_forms_panic.1 1 5 (.leaf (.Number 7)) [] initStore.1 initStore.1
      initStore.2 (.Number 7) (by decide),
   c10_malformed_forms_panic.2.2 0 [.leaf (.Number 5)] (.leaf (.Symbol "x")) []
      initStore.1 initStore.2
      ⟨.leaf (.Number 5), List.mem_singleton.mpr rfl,
        fun s h => by cases h⟩⟩

/-- C7: applying a user-defined `Proc {params, body, captured}`:
(1) a fresh scope is created whose recorded parent is the procedure's
`captured` scope, not the caller's scope; (2) the whole application equals:
evaluate the remaining children eagerly, left to right, against the
caller's scope `id` (each unwrapped), bind the parameters into the fresh
scope, and return the body evaluated against the fresh scope (unwrapped);
(3) parameters are bound to arguments by position, pairing stopping at the
shorter sequence — extra arguments are dropped and a parameter with no
argument stays unbound (`none`) in the fresh scope. -/
theorem c7_application_semantics (fuel : ℕ) (t : AstNode) (rest : List AstNode)
    (σ σ₁ : EnvManager) (id : ℕ) (p : ProcInfo)
    (hk : isKeyword t = false)
    (hop : evalNode fuel t σ id = (σ₁, .ok (some (.Proc p)))) :
    ((new_env σ₁ (some p.captured)).2 = σ₁.counter
      ∧ getEnv (new_env σ₁ (some p.captured)).1 σ₁.counter
          = some (Env.new σ₁.counter (some p.captured)))
    ∧ evalNode (fuel + 1) (.body (t :: rest)) σ id =
        (match evalSeq (fun a σ => evalNode fuel a σ id) rest
            (new_env σ₁ (some p.captured)).1 with
         | (σ₃, .error e) => (σ₃, .error e)
         | (σ₃, .ok argVals) =>
           match getEnv σ₃ σ₁.counter with
           | none => (σ₃, .error (.panic .unwrapNone))
           | some env =>
             match evalNode fuel p.body
                 (emInsert σ₃ σ₁.counter (bindArgs env p.args argVals)) σ₁.counter with
             | (σ₅, .ok (some v)) => (σ₅, .ok (some v))
             | (σ₅, .ok none) => (σ₅, .error (.panic .unwrapNone))
             | (σ₅, .error e) => (σ₅, .error e))
    ∧ (∀ (pc : ℕ) (par : Option ℕ) (params : List String) (args : List EnvType),
        params.Nodup → ∀ (i : ℕ) (h : i < params.length),
        envGet (bindArgs (Env.new pc par) params args) (params.get ⟨i, h⟩) =
          if h2 : i < args.length then some (args.get ⟨i, h2⟩) else none) := by
  simp only [isKeyword, Bool.or_eq_false_iff, decide_eq_false_iff_not] at hk
  refine ⟨⟨rfl, getEnv_new_env_self σ₁ (some p.captured)⟩, ?_, ?_⟩
  · have hstep : evalNode (fuel + 1) (.body (t :: rest)) σ id =
        (match evalNode fuel t σ id with
         | (σ₁, .error e) => (σ₁, .error e)
         | (σ₁, .ok pr) =>
           match pr with
           | some (.NativeProc name) =>
             match evalSeq (fun a σ => evalNode fuel a σ id) rest σ₁ with
             | (σ₂, .error e) => (σ₂, .error e)
             | (σ₂, .ok args) =>
               match native_call name args with
               | .ok v => (σ₂, .ok (some v))
               | .error msg => (σ₂, .error (.panic (.nativeErr msg)))
           | some (.Proc p) =>
             match evalSeq (fun a σ => evalNode fuel a σ id) rest
                 (new_env σ₁ (some p.captured)).1 with
             | (σ₃, .error e) => (σ₃, .error e)
             | (σ₃, .ok argVals) =>
               match getEnv σ₃ σ₁.counter with
               | none => (σ₃, .error (.panic .unwrapNone))
               | some env =>
                 match evalNode fuel p.body
                     (emInsert σ₃ σ₁.counter (bindArgs env p.args argVals)) σ₁.counter with
                 | (σ₅, .ok (some v)) => (σ₅, .ok (some v))
                 | (σ₅, .ok none) => (σ₅, .error (.panic .unwrapNone))
                 | (σ₅, .error e) => (σ₅, .error e)
           | _ => (σ₁, .ok pr)) := by
      simp only [evalNode]
      rw [if_neg hk.1, if_neg hk.2]
    rw [hstep, hop]
  · intro pc par params args hnd i h
    rw [bindArgs_get params args (Env.new pc par) hnd i h]
    by_cases h2 : i < args.length
    · rw [dif_pos h2, dif_pos h2]
    · rw [dif_neg h2, dif_neg h2]
      rfl

/-- C7 witness: evaluating a lambda form in the operator position of an
application against the root store produces a `Proc` capturing the root
scope, and the theorem applies: the fresh scope's recorded parent is that
captured scope. -/
theorem c7_witness :
    (new_env initStore.1 (some 0)).2 = initStore.1.counter
    ∧ getEnv (new_env initStore.1 (some 0)).1 initStore.1.counter
        = some (Env.new initStore.1.counter (some 0)) :=
  (c7_application_semantics 1
    (.body [.leaf (.Symbol "lambda"), .body [.leaf (.Symbol "x")], .leaf (.Symbol "x")])
    [.leaf (.Number 7)] initStore.1 initStore.1 initStore.2
    ⟨["x"], .leaf (.Symbol "x"), 0⟩ (by decide) (by decide)).1

/-- C8: a `define` form evaluates its expression against the current scope
and writes the resulting value into exactly the current scope under the
given name, producing no value; the new binding is found on local lookup
and shadows any earlier binding of that name in the same scope (a later
`define` overwrites); and every other scope already present in the store —
in particular every ancestor of the current scope — is left completely
unchanged. -/
theorem c8_define_semantics (fuel : ℕ) (x : String) (e : AstNode) (rest : List AstNode)
    (σ σ' : EnvManager) (id : ℕ) (v : EnvType) (env : Env)
    (he : evalNode fuel e σ id = (σ', .ok (some v)))
    (hg : getEnv σ' id = some env) :
    evalNode (fuel + 1)
        (.body (.leaf (.Symbol "define") :: .leaf (.Symbol x) :: e :: rest)) σ id
      = (emInsert σ' id (envSet env x v), .ok none)
    ∧ envGet (envSet env x v) x = some v
    ∧ (∀ w : EnvType, envGet (envSet (envSet env x w) x v) x = some v)
    ∧ (∀ j, j ≠ id → j < σ.counter →
        getEnv (emInsert σ' id (envSet env x v)) j = getEnv σ j) := by
  refine ⟨?_, envGet_envSet_self env x v, fun w => envGet_envSet_self _ x v,
    fun j hj hlt => ?_⟩
  · have hstep : evalNode (fuel + 1)
        (.body (.leaf (.Symbol "define") :: .leaf (.Symbol x) :: e :: rest)) σ id =
        (match evalNode fuel e σ id with
         | (σ', .error er) => (σ', .error er)
         | (σ', .ok none) => (σ', .error (.panic .unwrapNone))
         | (σ', .ok (some v)) =>
           match getEnv σ' id with
           | none => (σ', .error (.panic .unwrapNone))
           | some env => (emInsert σ' id (envSet env x v), .ok none)) := rfl
    rw [hstep, he]
    show (match getEnv σ' id with
          | none => ((σ', Except.error (Err.panic Panic.unwrapNone)) :
              EnvManager × Except Err (Option EnvType))
          | some env => (emInsert σ' id (envSet env x v), Except.ok none))
        = (emInsert σ' id (envSet env x v), Except.ok none)
    rw [hg]
  · have hinv := (evalNode_inv fuel e σ id).2 j hj hlt
    rw [he] at hinv
    have hinv2 : getEnv σ' j = getEnv σ j := hinv
    exact (getEnv_emInsert_ne σ' id j _ hj).trans hinv2

/-- Helper: `specTokensF` does not depend on the fuel once the fuel covers
the input length. -/
theorem specTokensF_congr : ∀ (f g : ℕ) (l : List Char), l.length ≤ f → l.length ≤ g →
    specTokensF f l = specTokensF g l := by
  intro f
  induction f with
  | zero =>
    intro g l hf _
    have h0 : l = [] := List.length_eq_zero.mp (Nat.le_zero.mp hf)
    subst h0
    cases g <;> rfl
  | succ f ihf =>
    intro g l hf hg
    cases l with
    | nil => cases g <;> rfl
    | cons c cs =>
      cases g with
      | zero => simp at hg
      | succ g' =>
        have hf' : cs.length ≤ f := by simpa using hf
        have hg' : cs.length ≤ g' := by simpa using hg
        simp only [specTokensF]
        by_cases hp : c = '(' ∨ c = ')'
        · rw [if_pos hp, if_pos hp, ihf g' cs hf' hg']
        · rw [if_neg hp, if_neg hp]
          by_cases hs : c = ' '
          · rw [if_pos hs, if_pos hs]
            exact ihf g' cs hf' hg'
          · rw [if_neg hs, if_neg hs]
            by_cases hr : cs.dropWhile spaceAtomChar = []
            · rw [if_pos hr, if_pos hr]
            · rw [if_neg hr, if_neg hr]
              have hd := dropWhile_len_le spaceAtomChar cs
              rw [ihf g' (cs.dropWhile spaceAtomChar) (le_trans hd hf') (le_trans hd hg')]

/-- Helper: the source tokenizer loop agrees with the amended specification:
with an empty accumulator it produces `specTokensF`; with a pending
accumulator it produces the pending run extended by the next maximal atom
run — emitted only if a separator or paren terminates it, discarded at end
of input. -/
theorem tokAux_spec : ∀ (cs : List Char),
    (∀ (f : ℕ), cs.length ≤ f → tokAux cs [] = specTokensF f cs)
    ∧ (∀ (acc : List Char) (f : ℕ), acc ≠ [] → cs.length ≤ f →
        tokAux cs acc =
          (if cs.dropWhile spaceAtomChar = [] then []
           else String.mk (acc ++ cs.takeWhile spaceAtomChar) ::
             specTokensF f (cs.dropWhile spaceAtomChar))) := by
  intro cs
  induction cs with
  | nil =>
    constructor
    · intro f _
      cases f <;> rfl
    · intro acc f hacc _
      simp [tokAux, List.dropWhile]
  | cons c cs ih =>
    obtain ⟨ihA, ihB⟩ := ih
    constructor
    · intro f hf
      cases f with
      | zero => simp at hf
      | succ f' =>
        have hf' : cs.length ≤ f' := by simpa using hf
        by_cases hp : c = '(' ∨ c = ')'
        · have hL : tokAux (c :: cs) [] = String.singleton c :: tokAux cs [] := by
            simp [tokAux, hp]
          rw [hL, ihA f' hf']
          simp [specTokensF, hp]
        · by_cases hs : c = ' '
          · have hL : tokAux (c :: cs) [] = tokAux cs [] := by simp [tokAux, hp, hs]
            rw [hL, ihA f' hf']
            simp [specTokensF, hp, hs]
          · have hL : tokAux (c :: cs) [] = tokAux cs [c] := by simp [tokAux, hp, hs]
            rw [hL, ihB [c] f' (by simp) hf']
            simp [specTokensF, hp, hs]
    · intro acc f hacc hf
      cases f with
      | zero => simp at hf
      | succ f' =>
        have hf' : cs.length ≤ f' := by simpa using hf
        by_cases hp : c = '(' ∨ c = ')'
        · have hac : spaceAtomChar c = false := by
            rcases hp with h | h <;> simp [spaceAtomChar, h]
          have hL : tokAux (c :: cs) acc = String.mk acc :: String.singleton c :: tokAux cs [] := by
            simp [tokAux, hp, hacc]
          rw [hL, ihA f' hf']
          simp [List.dropWhile_cons, List.takeWhile_cons, hac, specTokensF, hp]
        · by_cases hs : c = ' '
          · subst hs
            have hL : tokAux (' ' :: cs) acc = String.mk acc :: tokAux cs [] := by
              simp [tokAux, hacc]
            rw [hL, ihA f' hf']
            simp [List.dropWhile_cons, List.takeWhile_cons, spaceAtomChar, specTokensF]
          · have hac : spaceAtomChar c = true := by
              simp only [spaceAtomChar, Bool.not_eq_true', Bool.or_eq_false_iff,
                decide_eq_false_iff_not]
              exact ⟨⟨fun h => hp (Or.inl h), fun h => hp (Or.inr h)⟩, hs⟩
            have hL : tokAux (c :: cs) acc = tokAux cs (acc ++ [c]) := by
              simp [tokAux, hp, hs]
            rw [hL, ihB (acc ++ [c]) f' (by simp) hf']
            have hd := dropWhile_len_le spaceAtomChar cs
            rw [specTokensF_congr f' (f' + 1) (cs.dropWhile spaceAtomChar)
              (le_trans hd hf') (le_trans hd (by omega))]
            simp [List.dropWhile_cons, List.takeWhile_cons, hac, List.append_assoc]

/-- C3 (amended): the source tokenizer agrees with the amended token
specification `specTokens` on every input — `(` and `)` own tokens, the
space character the only separator (other whitespace is atom material),
maximal atom runs emitted when terminated by a space or paren and
discarded at end of input — and empty input yields the empty sequence. -/
theorem c3_tokeniser_spec :
    (∀ s : String, tokenise s = specTokens s.data) ∧ tokenise "" = [] := by
  constructor
  · intro s
    exact (tokAux_spec s.data).1 s.data.length le_rfl
  · rfl

/-- Helper: level of an empty token sequence. -/
theorem lvl_nil : lvl [] = 0 := rfl

/-- Helper: level of a cons. -/
theorem lvl_cons (t : String) (ts : List String) :
    lvl (t :: ts) = tokWeight t + lvl ts := by
  simp [lvl]

/-- Helper: level is additive over append. -/
theorem lvl_append (a b : List String) : lvl (a ++ b) = lvl a + lvl b := by
  simp [lvl]

/-- Helper: a passing never-negative scan starts nonnegative. -/
theorem nn_head {d : Int} {ts : List String} (h : nnTok d ts = true) : 0 ≤ d := by
  cases ts with
  | nil => simpa [nnTok] using h
  | cons t ts =>
    have h' := h
    simp [nnTok] at h'
    exact h'.1

/-- Helper: unfolding the never-negative scan one token. -/
theorem nn_cons {d : Int} {t : String} {ts : List String} :
    nnTok d (t :: ts) = true ↔ 0 ≤ d ∧ nnTok (d + tokWeight t) ts = true := by
  simp [nnTok]

/-- Helper: a passing scan ends nonnegative. -/
theorem nn_lvl : ∀ (ts : List String) (d : Int), nnTok d ts = true → 0 ≤ d + lvl ts := by
  intro ts
  induction ts with
  | nil =>
    intro d h
    have h' : 0 ≤ d := by simpa [nnTok] using h
    simpa [lvl] using h'
  | cons t ts ih =>
    intro d h
    rw [nn_cons] at h
    have h2 := ih (d + tokWeight t) h.2
    rw [lvl_cons]
    omega

/-- Helper: a passing scan still passes from the level reached after a
processed chunk. -/
theorem nn_append : ∀ (a b : List String) (d : Int),
    nnTok d (a ++ b) = true → nnTok (d + lvl a) b = true := by
  intro a
  induction a with
  | nil =>
    intro b d h
    have e : d + lvl ([] : List String) = d := by rw [lvl_nil]; ring
    rw [e]
    exact h
  | cons t a ih =>
    intro b d h
    rw [List.cons_append, nn_cons] at h
    have h2 := ih b (d + tokWeight t) h.2
    have e : d + tokWeight t + lvl a = d + lvl (t :: a) := by rw [lvl_cons]; ring
    rw [e] at h2
    exact h2

/-- Helper: unfolding the top-level-form count one token. -/
theorem cnt_cons (t : String) (ts : List String) (d : Int) :
    cnt (t :: ts) d =
      (if t = "(" then (if d = 0 then 1 else 0) + cnt ts (d + 1)
       else if t = ")" then cnt ts (d - 1)
       else (if d = 0 then 1 else 0) + cnt ts d) := rfl

/-- Helper: the top-level-form count is additive over append, with the level
shifted by the first chunk. -/
theorem cnt_append : ∀ (a b : List String) (d : Int),
    cnt (a ++ b) d = cnt a d + cnt b (d + lvl a) := by
  intro a
  induction a with
  | nil =>
    intro b d
    have e : d + lvl ([] : List String) = d := by rw [lvl_nil]; ring
    rw [e]
    simp [cnt]
  | cons t a ih =>
    intro b d
    rw [List.cons_append, cnt_cons, cnt_cons]
    by_cases hp : t = "("
    · rw [if_pos hp, if_pos hp, ih b (d + 1)]
      have e : d + 1 + lvl a = d + lvl (t :: a) := by
        rw [lvl_cons, hp]
        have : tokWeight "(" = 1 := rfl
        rw [this]; ring
      rw [e]; ring
    · rw [if_neg hp, if_neg hp]
      by_cases hq : t = ")"
      · rw [if_pos hq, if_pos hq, ih b (d - 1)]
        have e : d - 1 + lvl a = d + lvl (t :: a) := by
          rw [lvl_cons, hq]
          have : tokWeight ")" = -1 := rfl
          rw [this]; ring
        rw [e]
      · rw [if_neg hq, if_neg hq, ih b d]
        have e : d + lvl a = d + lvl (t :: a) := by
          rw [lvl_cons]
          have : tokWeight t = 0 := by simp [tokWeight, hp, hq]
          rw [this]; ring
        rw [e]; ring

/-- Helper: a chunk whose running level stays strictly below the count level
contributes no top-level forms. -/
theorem cnt_zero : ∀ (u : List String) (d e : Int),
    nnTok e u = true → e < d → cnt u d = 0 := by
  intro u
  induction u with
  | nil => intro d e _ _; rfl
  | cons t u ih =>
    intro d e h hlt
    rw [nn_cons] at h
    have hd : ¬ d = 0 := by have := h.1; omega
    rw [cnt_cons]
    by_cases hp : t = "("
    · rw [if_pos hp, if_neg hd]
      have hw : tokWeight t = 1 := by rw [hp]; rfl
      rw [hw] at h
      have := ih (d + 1) (e + 1) h.2 (by omega)
      omega
    · rw [if_neg hp]
      by_cases hq : t = ")"
      · rw [if_pos hq]
        have hw : tokWeight t = -1 := by rw [hq]; rfl
        rw [hw] at h
        exact ih (d - 1) (e + -1) h.2 (by omega)
      · rw [if_neg hq, if_neg hd]
        have hw : tokWeight t = 0 := by simp [tokWeight, hp, hq]
        rw [hw] at h
        have := ih d (e + 0) h.2 (by omega)
        omega

/-- Helper: what a successful `scanClose` returns: the tokens before the
located `)`, which form a chunk of level `-d` whose running level from `d`
never goes negative, and the tokens after it. -/
theorem scanClose_spec : ∀ (ts : List String) (d : ℕ) (u v : List String),
    scanClose ts d = some (u, v) →
    ts = u ++ ")" :: v ∧ lvl u = -(d : Int) ∧ nnTok (d : Int) u = true := by
  intro ts
  induction ts with
  | nil => intro d u v h; simp [scanClose] at h
  | cons t ts ih =>
    intro d u v h
    by_cases hp : t = "("
    · subst hp
      rw [show scanClose ("(" :: ts) d =
          (scanClose ts (d + 1)).map (fun uv => ("(" :: uv.1, uv.2)) from rfl] at h
      rcases hin : scanClose ts (d + 1) with _ | ⟨u', v'⟩
      · rw [hin] at h; simp at h
      · rw [hin] at h
        simp only [Option.map_some'] at h
        obtain ⟨hu, hv⟩ := Prod.mk.injEq .. ▸ Option.some.inj h
        obtain ⟨h1, h2, h3⟩ := ih (d + 1) u' v' hin
        subst hu; subst hv
        refine ⟨by rw [h1]; rfl, ?_, ?_⟩
        · rw [lvl_cons]
          have hw : tokWeight "(" = 1 := rfl
          rw [hw, h2]
          push_cast
          ring
        · rw [nn_cons]
          refine ⟨by positivity, ?_⟩
          have hw : tokWeight "(" = 1 := rfl
          rw [hw]
          have e : (d : Int) + 1 = ((d + 1 : ℕ) : Int) := by push_cast; ring
          rw [e]
          exact h3
    · by_cases hq : t = ")"
      · subst hq
        cases d with
        | zero =>
          rw [show scanClose (")" :: ts) 0 = some ([], ts) from rfl] at h
          simp only [Option.some.injEq, Prod.mk.injEq] at h
          obtain ⟨hu, hv⟩ := h
          subst hu; subst hv
          exact ⟨rfl, by simp [lvl], by simp [nnTok]⟩
        | succ e =>
          rw [show scanClose (")" :: ts) (e + 1) =
              (scanClose ts e).map (fun uv => (")" :: uv.1, uv.2)) from rfl] at h
          rcases hin : scanClose ts e with _ | ⟨u', v'⟩
          · rw [hin] at h; simp at h
          · rw [hin] at h
            simp only [Option.map_some'] at h
            obtain ⟨hu, hv⟩ := Prod.mk.injEq .. ▸ Option.some.inj h
            obtain ⟨h1, h2, h3⟩ := ih e u' v' hin
            subst hu; subst hv
            refine ⟨by rw [h1]; rfl, ?_, ?_⟩
            · rw [lvl_cons]
              have hw : tokWeight ")" = -1 := rfl
              rw [hw, h2]
              push_cast
              ring
            · rw [nn_cons]
              refine ⟨by positivity, ?_⟩
              have hw : tokWeight ")" = -1 := rfl
              rw [hw]
              have e2 : ((e + 1 : ℕ) : Int) + -1 = (e : Int) := by push_cast; ring
              rw [e2]
              exact h3
      · have hstep : scanClose (t :: ts) d =
            (scanClose ts d).map (fun uv => (t :: uv.1, uv.2)) := by
          simp [scanClose, hp, hq]
        rw [hstep] at h
        rcases hin : scanClose ts d with _ | ⟨u', v'⟩
        · rw [hin] at h; simp at h
        · rw [hin] at h
          simp only [Option.map_some'] at h
          obtain ⟨hu, hv⟩ := Prod.mk.injEq .. ▸ Option.some.inj h
          obtain ⟨h1, h2, h3⟩ := ih d u' v' hin
          subst hu; subst hv
          refine ⟨by rw [h1]; rfl, ?_, ?_⟩
          · rw [lvl_cons]
            have hw : tokWeight t = 0 := by simp [tokWeight, hp, hq]
            rw [hw, h2]
            ring
          · rw [nn_cons]
            refine ⟨by positivity, ?_⟩
            have hw : tokWeight t = 0 := by simp [tokWeight, hp, hq]
            rw [hw]
            have e : (d : Int) + 0 = (d : Int) := by ring
            rw [e]
            exact h3

/-- Helper: whenever the never-negative scan fails from level `d`, the
scanner locates a closing parenthesis. -/
theorem scanClose_total : ∀ (ts : List String) (d : ℕ),
    nnTok (d : Int) ts = false → (scanClose ts d).isSome := by
  intro ts
  induction ts with
  | nil =>
    intro d h
    rw [show nnTok (d : Int) [] = decide (0 ≤ (d : Int)) from rfl] at h
    simp [Int.natCast_nonneg] at h
  | cons t ts ih =>
    intro d h
    rw [show nnTok (d : Int) (t :: ts) =
        (decide (0 ≤ (d : Int)) && nnTok ((d : Int) + tokWeight t) ts) from rfl] at h
    rw [decide_eq_true (Int.natCast_nonneg d), Bool.true_and] at h
    by_cases hp : t = "("
    · subst hp
      have hw : tokWeight "(" = 1 := rfl
      rw [hw, show (d : Int) + 1 = ((d + 1 : ℕ) : Int) from by push_cast; ring] at h
      have hih := ih (d + 1) h
      rw [show scanClose ("(" :: ts) d =
          (scanClose ts (d + 1)).map (fun uv => ("(" :: uv.1, uv.2)) from rfl]
      rcases hin : scanClose ts (d + 1) with _ | pr
      · rw [hin] at hih; simp at hih
      · simp
    · by_cases hq : t = ")"
      · subst hq
        cases d with
        | zero => simp [scanClose]
        | succ e =>
          have hw : tokWeight ")" = -1 := rfl
          rw [hw, show ((e + 1 : ℕ) : Int) + -1 = (e : Int) from by push_cast; ring] at h
          have hih := ih e h
          rw [show scanClose (")" :: ts) (e + 1) =
              (scanClose ts e).map (fun uv => (")" :: uv.1, uv.2)) from rfl]
          rcases hin : scanClose ts e with _ | pr
          · rw [hin] at hih; simp at hih
          · simp
      · have hw : tokWeight t = 0 := by simp [tokWeight, hp, hq]
        rw [hw, show (d : Int) + 0 = (d : Int) from by ring] at h
        have hih := ih d h
        have hstep : scanClose (t :: ts) d =
            (scanClose ts d).map (fun uv => (t :: uv.1, uv.2)) := by
          simp [scanClose, hp, hq]
        rw [hstep]
        rcases hin : scanClose ts d with _ | pr
        · rw [hin] at hih; simp at hih
        · simp

/-- Helper (main parser-run lemma): processing a chunk whose running level
never goes negative appends the chunk's top-level forms to the current body
and stacks one open body per unmatched `(`; the level advances by the
chunk's net level.  When the chunk is balanced, the number of appended
children is exactly the number of top-level forms. -/
theorem parseRun : ∀ (n : ℕ) (ts : List String), ts.length ≤ n → nnTok 0 ts = true →
    ∃ (tops cs : List AstNode),
      tops.length = (lvl ts).toNat ∧
      (lvl ts = 0 → cs.length = cnt ts 0) ∧
      ∀ (rest : List String) (cur stk : List AstNode) (level : Int),
        parseLoop (ts ++ rest) (.body cur :: stk) level =
          parseLoop rest (tops ++ .body (cur ++ cs) :: stk) (level + lvl ts) := by
  intro n
  induction n with
  | zero =>
    intro ts hlen _
    have h0 : ts = [] := List.length_eq_zero.mp (Nat.le_zero.mp hlen)
    subst h0
    refine ⟨[], [], by simp [lvl], fun _ => rfl, ?_⟩
    intro rest cur stk level
    simp [lvl]
  | succ n ih =>
    intro ts hlen hnn
    cases ts with
    | nil =>
      refine ⟨[], [], by simp [lvl], fun _ => rfl, ?_⟩
      intro rest cur stk level
      simp [lvl]
    | cons t ts' =>
      have hlen' : ts'.length ≤ n := by simpa using hlen
      rw [nn_cons] at hnn
      by_cases hp : t = "("
      · subst hp
        have hw : tokWeight "(" = 1 := rfl
        have hnn1 : nnTok 1 ts' = true := by
          have h2 := hnn.2
          rw [hw, show (0 : Int) + 1 = 1 from by ring] at h2
          exact h2
        rcases hsc : scanClose ts' 0 with _ | ⟨u, v⟩
        · have hnn0 : nnTok 0 ts' = true := by
            cases hb : nnTok 0 ts' with
            | true => rfl
            | false =>
              exfalso
              have hb' : nnTok ((0 : ℕ) : Int) ts' = false := by rw [Nat.cast_zero]; exact hb
              have := scanClose_total ts' 0 hb'
              rw [hsc] at this
              simp at this
          obtain ⟨tops', cs', hl', hc', hr'⟩ := ih ts' hlen' hnn0
          have hlvlpos : 0 ≤ lvl ts' := by
            have := nn_lvl ts' 0 hnn0
            omega
          refine ⟨tops' ++ [.body cs'], [], ?_, ?_, ?_⟩
          · rw [List.length_append, hl', lvl_cons, hw]
            simp
            omega
          · intro h0
            exfalso
            rw [lvl_cons, hw] at h0
            omega
          · intro rest cur stk level
            have step : parseLoop (("(" :: ts') ++ rest) (.body cur :: stk) level
                = parseLoop (ts' ++ rest) (.body [] :: .body cur :: stk) (level + 1) := rfl
            rw [step, hr' rest [] (.body cur :: stk) (level + 1)]
            have e1 : tops' ++ AstNode.body ([] ++ cs') :: AstNode.body cur :: stk
                = (tops' ++ [AstNode.body cs']) ++ AstNode.body (cur ++ []) :: stk := by
              simp
            have e2 : level + 1 + lvl ts' = level + lvl ("(" :: ts') := by
              rw [lvl_cons, hw]; ring
            rw [e1, e2]
        · obtain ⟨hts, hlvlu, hnnu⟩ := scanClose_spec ts' 0 u v hsc
          rw [Nat.cast_zero, neg_zero] at hlvlu
          rw [Nat.cast_zero] at hnnu
          subst hts
          have hwc : tokWeight ")" = -1 := rfl
          have hul : u.length ≤ n := by
            have := hlen'
            simp [List.length_append] at this
            omega
          have hvl : v.length ≤ n := by
            have := hlen'
            simp [List.length_append] at this
            omega
          have hnnv : nnTok 0 v = true := by
            have h1 := nn_append u (")" :: v) 1 hnn1
            rw [hlvlu, add_zero, nn_cons, hwc] at h1
            have h2 := h1.2
            rw [show (1 : Int) + -1 = 0 from by ring] at h2
            exact h2
          obtain ⟨topsU, csU, hlU, hcU, hrU⟩ := ih u hul hnnu
          obtain ⟨topsV, csV, hlV, hcV, hrV⟩ := ih v hvl hnnv
          have htopsU : topsU = [] := by
            refine List.length_eq_zero.mp ?_
            rw [hlU, hlvlu]
            rfl
          have hlvlts : lvl ("(" :: (u ++ ")" :: v)) = lvl v := by
            rw [lvl_cons, hw, lvl_append, lvl_cons, hwc, hlvlu]
            ring
          refine ⟨topsV, .body csU :: csV, ?_, ?_, ?_⟩
          · rw [hlV, hlvlts]
          · intro h0
            rw [hlvlts] at h0
            have hcsV := hcV h0
            have hcnt : cnt ("(" :: (u ++ ")" :: v)) 0 = 1 + cnt v 0 := by
              rw [cnt_cons, if_pos rfl, if_pos rfl, show (0 : Int) + 1 = 1 from by ring,
                cnt_append, cnt_zero u 1 0 hnnu (by norm_num), hlvlu,
                show (1 : Int) + 0 = 1 from by ring, cnt_cons]
              rw [if_neg (by decide), if_pos rfl, show (1 : Int) - 1 = 0 from by ring]
              omega
            rw [hcnt]
            simp [List.length_cons, hcsV]
            omega
          · intro rest cur stk level
            have step1 : parseLoop (("(" :: (u ++ ")" :: v)) ++ rest) (.body cur :: stk) level
                = parseLoop ((u ++ ")" :: v) ++ rest) (.body [] :: .body cur :: stk)
                    (level + 1) := rfl
            rw [step1]
            have e0 : (u ++ ")" :: v) ++ rest = u ++ (")" :: (v ++ rest)) := by simp
            rw [e0, hrU (")" :: (v ++ rest)) [] (.body cur :: stk) (level + 1), htopsU, hlvlu]
            have step2 : parseLoop (")" :: (v ++ rest))
                ([] ++ AstNode.body ([] ++ csU) :: AstNode.body cur :: stk) (level + 1 + 0)
                = parseLoop (v ++ rest) (.body (cur ++ [AstNode.body csU]) :: stk)
                    (level + 1 + 0 - 1) := rfl
            rw [step2, hrV rest (cur ++ [AstNode.body csU]) stk (level + 1 + 0 - 1)]
            have e1 : (cur ++ [AstNode.body csU]) ++ csV = cur ++ (AstNode.body csU :: csV) := by
              simp
            have e2 : level + 1 + 0 - 1 + lvl v = level + lvl ("(" :: (u ++ ")" :: v)) := by
              rw [hlvlts]; ring
            rw [e1, e2]
      · by_cases hq : t = ")"
        · exfalso
          subst hq
          have h2 := hnn.2
          have hwc : tokWeight ")" = -1 := rfl
          rw [hwc] at h2
          have h0 := nn_head h2
          omega
        · have hw0 : tokWeight t = 0 := by simp [tokWeight, hp, hq]
          have hnn0 : nnTok 0 ts' = true := by
            have h2 := hnn.2
            rw [hw0, add_zero] at h2
            exact h2
          obtain ⟨tops', cs', hl', hc', hr'⟩ := ih ts' hlen' hnn0
          have hlvl : lvl (t :: ts') = lvl ts' := by rw [lvl_cons, hw0]; ring
          refine ⟨tops', atomToNode t :: cs', ?_, ?_, ?_⟩
          · rw [hl', hlvl]
          · intro h0
            rw [hlvl] at h0
            rw [cnt_cons, if_neg hp, if_neg hq, if_pos rfl]
            simp [List.length_cons, hc' h0]
            omega
          · intro rest cur stk level
            have step : parseLoop ((t :: ts') ++ rest) (.body cur :: stk) level
                = parseLoop (ts' ++ rest) (.body (cur ++ [atomToNode t]) :: stk) level := by
              simp only [List.cons_append, parseLoop]
              rw [if_neg hp, if_neg hq]
              rfl
            rw [step, hr' rest (cur ++ [atomToNode t]) stk level]
            have e1 : (cur ++ [atomToNode t]) ++ cs' = cur ++ (atomToNode t :: cs') := by simp
            have e2 : level + lvl ts' = level + lvl (t :: ts') := by rw [hlvl]
            rw [e1, e2]

/-- C4 counterexample: parse failures are process aborts, not recoverable
`UnbalancedParenthesesError` values: unequal counts hit the failed
`assert!(level == 0)`, and a `)` with nothing open hits the `unwrap` of
the emptied stack. -/
theorem c4_counterexample :
    parse ["(", "*", "1", "2"] = .error .assertUnbalanced
    ∧ parse [")"] = .error .unwrapNone := by
  decide

/-- C4 (amended): for every token sequence — with `nnTok 0 ts` the check
that no prefix closes a parenthesis that is not open, `lvl ts` the count of
`(` minus the count of `)`, and `cnt ts 0` the number of top-level forms —
(1) a balanced sequence parses to a forest whose size equals the number of
top-level forms; (2) unequal parenthesis counts (without a premature close)
abort via the failed level assertion; (3) a premature close aborts via the
unwrap of the emptied stack.  Both failures are modelled process aborts,
not recoverable error values. -/
theorem c4_parse_balance (ts : List String) :
    (nnTok 0 ts = true → lvl ts = 0 →
      ∃ forest, parse ts = .ok forest ∧ forest.length = cnt ts 0)
    ∧ (nnTok 0 ts = true → lvl ts ≠ 0 → parse ts = .error .assertUnbalanced)
    ∧ (nnTok 0 ts = false → parse ts = .error .unwrapNone) := by
  have parse_eq : ∀ us : List String, parse us =
      (match parseLoop us [AstNode.body []] 0 with
       | Except.error p => Except.error p
       | Except.ok (stack, level) =>
         if level = 0 then
           match stack with
           | [] => Except.error Panic.unwrapNone
           | first :: _ =>
             match first with
             | AstNode.body a => Except.ok a
             | AstNode.leaf _ => Except.error Panic.no
         else Except.error Panic.assertUnbalanced) := fun _ => rfl
  refine ⟨?_, ?_, ?_⟩
  · intro hnn h0
    obtain ⟨tops, cs, hl, hc, hr⟩ := parseRun ts.length ts le_rfl hnn
    have htops : tops = [] := by
      refine List.length_eq_zero.mp ?_
      rw [hl, h0]
      rfl
    have hPL : parseLoop ts [.body []] 0 = .ok ([.body cs], 0) := by
      have hrun := hr [] [] [] 0
      rw [List.append_nil, htops, h0] at hrun
      simpa [parseLoop] using hrun
    refine ⟨cs, ?_, hc h0⟩
    rw [parse_eq ts, hPL]
    rfl
  · intro hnn hlvl
    obtain ⟨tops, cs, hl, hc, hr⟩ := parseRun ts.length ts le_rfl hnn
    have hPL : parseLoop ts [.body []] 0 = .ok (tops ++ [.body cs], 0 + lvl ts) := by
      have hrun := hr [] [] [] 0
      rw [List.append_nil] at hrun
      simpa [parseLoop] using hrun
    rw [parse_eq ts, hPL]
    exact if_neg (by omega)
  · intro hnnF
    have hsome := scanClose_total ts 0 (by rw [Nat.cast_zero]; exact hnnF)
    rcases hx : scanClose ts 0 with _ | ⟨u, v⟩
    · rw [hx] at hsome; simp at hsome
    · obtain ⟨hts, hlvlu, hnnu⟩ := scanClose_spec ts 0 u v hx
      rw [Nat.cast_zero, neg_zero] at hlvlu
      rw [Nat.cast_zero] at hnnu
      obtain ⟨topsU, csU, hlU, hcU, hrU⟩ := parseRun u.length u le_rfl hnnu
      have htopsU : topsU = [] := by
        refine List.length_eq_zero.mp ?_
        rw [hlU, hlvlu]
        rfl
      have hPL : parseLoop ts [.body []] 0 = .error .unwrapNone := by
        rw [hts]
        calc parseLoop (u ++ ")" :: v) [.body []] 0
            = parseLoop (")" :: v) (topsU ++ .body ([] ++ csU) :: []) (0 + lvl u) :=
              hrU (")" :: v) [] [] 0
          _ = .error .unwrapNone := by rw [htopsU, hlvlu]; rfl
      rw [parse_eq ts, hPL]

/-- C4 witness: a balanced sequence parses to a forest of the right size; an
unequal-count sequence hits the assertion abort; a premature `)` hits the
unwrap abort. -/
theorem c4_witness :
    (∃ forest, parse ["(", "a", ")"] = .ok forest
      ∧ forest.length = cnt ["(", "a", ")"] 0)
    ∧ parse ["(", "("] = .error .assertUnbalanced
    ∧ parse ["a", ")", "("] = .error .unwrapNone :=
  ⟨(c4_parse_balance ["(", "a", ")"]).1 (by decide) (by decide),
   (c4_parse_balance ["(", "("]).2.1 (by decide) (by decide),
   (c4_parse_balance ["a", ")", "("]).2.2 (by decide)⟩

/-- C8 witness: `(define x 5)` against the root store writes `x` into the
root scope and produces no value. -/
theorem c8_witness :
    evalNode 2 (.body [.leaf (.Symbol "define"), .leaf (.Symbol "x"), .leaf (.Number 5)])
        initStore.1 initStore.2
      = (emInsert initStore.1 initStore.2
          (envSet (envStd (Env.new 0 none)) "x" (.Number 5)), .ok none) :=
  (c8_define_semantics 1 "x" (.leaf (.Number 5)) [] initStore.1 initStore.1 initStore.2
    (.Number 5) (envStd (Env.new 0 none)) (by decide) (by decide)).1

end Lisp
